import Mathlib

/-!
Verification of the pane-splitting core (`FileLayout`) of the `ox` editor,
shallowly embedded from `src/src/editor/documents.rs`.

Modelling conventions:
* Rust `usize` is modelled as `Nat`; `a - b` on `usize` is Rust's wrapping/
  panicking subtraction, so the one unchecked `end -= 1` in `span` is modelled
  explicitly: when `end = 0` the whole call returns `Option.none`, standing for
  the arithmetic underflow (a panic in a debug build, a wrap to `2^64 - 1` in a
  release build — under either semantics the claimed output does not arise).
  `saturating_sub` is Nat truncated subtraction, which matches exactly.
* Rust `f64` proportions are modelled by the exact fraction type `F64`
  (every finite double is a rational number); `(w as f64 * p) as usize`
  (truncation toward zero, saturating at 0 for negatives) is floor division
  `((w * p.num).fdiv p.den).toNat`.  For every constant appearing in the
  spec's scenarios the IEEE double computation and the exact fraction
  computation agree: `0.5` is a dyadic rational, and both `100.0 * 0.33` and
  `100.0 * 0.34` round to exactly `33.0` resp. `34.0`, equal to
  `⌊100 * 33/100⌋` and `⌊100 * 34/100⌋`.
* `Vec<(FileLayout, f64)>` is encoded by the mutual inductive `Children`
  (a cons-list of child/proportion pairs), so that all tree recursions are
  structural.
* Panicking addressing operations (`Vec::remove(0)` on an empty vector,
  `layouts[subidx]` out of range) are modelled by the `Res.panic` value of the
  three-valued result type `Res`, keeping a Rust panic distinguishable from an
  explicit `None`.
* `FileContainer` carries only the field the layout code reads
  (`doc.file_name`); `Document`, `Highlighter` and `FileType` are opaque
  external services.
* `get_absolute_path` lives in `crate::editor` outside the provided sources;
  it is passed as an explicit `resolve` parameter to `find`.
-/

namespace Ox

/-- Terminal size in cells (kaolinite `Size { w, h }`). -/
structure Size where
  w : Nat
  h : Nat
deriving DecidableEq, Repr

/-- Rust `Range<usize>`: half-open `start..stop`. -/
structure Rg where
  start : Nat
  stop : Nat
deriving DecidableEq, Repr

/-- Rust `Range::contains`: `start <= y && y < stop`. -/
def Rg.containsRow (r : Rg) (y : Nat) : Bool :=
  decide (r.start ≤ y) && decide (y < r.stop)

/-- One span entry `(Vec<usize>, Range<usize>, Range<usize>)`:
path, row range, column range. -/
structure Span where
  path : List Nat
  rows : Rg
  cols : Rg
deriving DecidableEq, Repr

/-- Container for one open file.  Only `doc.file_name` is ever read by the
layout code; the document, highlighter and file-type payloads are opaque
external types and are not represented. -/
structure FileContainer where
  file_name : Option String
deriving DecidableEq, Repr

/-- An `f64` value represented exactly: every finite double equals
`num / den` for an integer `num` and positive integer `den` (doubles are
dyadic rationals).  Arithmetic on proportions is modelled exactly over this
representation. -/
structure F64 where
  num : Int
  den : Nat
deriving DecidableEq, Repr

/-- Three-valued outcome of a path-addressed operation: a successful value, an
explicit `None`, or a Rust panic (out-of-bounds `Vec` index / `remove(0)` on an
empty path vector). -/
inductive Res (α : Type) where
  | ok (val : α)
  | none
  | panic
deriving DecidableEq, Repr

mutual
/-- The file split tree (`enum FileLayout`). -/
inductive FileLayout where
  /-- Side-by-side documents (with proportions). -/
  | sideBySide (layouts : Children)
  /-- Top-to-bottom documents (with proportions). -/
  | topToBottom (layouts : Children)
  /-- Single file container (and pointer for tabs). -/
  | atom (containers : List FileContainer) (ptr : Nat)
  /-- Placeholder for an empty file split. -/
  | none

/-- `Vec<(FileLayout, f64)>` as a cons list of (child, proportion) pairs. -/
inductive Children where
  | nil
  | cons (child : FileLayout) (prop : F64) (rest : Children)
end

/-- Number of children (`Vec::len`). -/
def Children.clength : Children → Nat
  | .nil => 0
  | .cons _ _ rest => 1 + rest.clength

/-- Is the child list empty?  In the `span` loop, `c == layouts.len() - 1`
holds exactly when the remaining tail after the current child is empty. -/
def Children.isNil : Children → Bool
  | .nil => true
  | .cons _ _ _ => false

/-- Indexing (`Vec` subscript, total variant). -/
def Children.get? : Children → Nat → Option (FileLayout × F64)
  | .nil, _ => Option.none
  | .cons child prop _, 0 => some (child, prop)
  | .cons _ _ rest, n + 1 => rest.get? n

/-- Append of child lists (used to name the last child in statements). -/
def Children.append : Children → Children → Children
  | .nil, ys => ys
  | .cons c p rest, ys => .cons c p (rest.append ys)

/-- The Rust product-and-cast `(w as f64 * p) as usize` on an exact fraction:
floor of `w * num / den`, truncated toward zero and saturating at `0` for
negative values (floor and zero-truncation agree once negatives saturate). -/
def f64_as_usize (w : Nat) (p : F64) : Nat :=
  (((w : Int) * p.num).fdiv (p.den : Int)).toNat

/-- The sentinel path of a divider entry: `vec![42].repeat(100)`. -/
def divPath : List Nat := List.replicate 100 42

/-- Column-range rewrite performed by the `SideBySide` arm of `span` on each
span returned by one child: `end -= 1` for a non-last child (underflow at 0 is
the modelled failure), `end += size.w.saturating_sub(end)` for the last child,
then `sub.2 = at..end`. -/
def shiftCols : List Span → Nat → Nat → Bool → Option (List Span)
  | [], _, _, _ => some []
  | s :: ss, at_, w, isLast =>
    if isLast then
      match shiftCols ss at_ w isLast with
      | Option.none => Option.none
      | some rest => some ({ s with cols := ⟨at_, s.cols.stop + (w - s.cols.stop)⟩ } :: rest)
    else
      if s.cols.stop = 0 then Option.none
      else
        match shiftCols ss at_ w isLast with
        | Option.none => Option.none
        | some rest => some ({ s with cols := ⟨at_, s.cols.stop - 1⟩ } :: rest)

/-- Row-range rewrite performed by the `TopToBottom` arm of `span`: same
arithmetic on rows, and for every span of a non-last child a divider entry
`(vec![42].repeat(100), rows, cols)` is pushed first, carrying the pre-shift
ranges. -/
def shiftRowsDiv : List Span → Nat → Nat → Bool → Option (List Span)
  | [], _, _, _ => some []
  | s :: ss, at_, h, isLast =>
    if isLast then
      match shiftRowsDiv ss at_ h isLast with
      | Option.none => Option.none
      | some rest => some ({ s with rows := ⟨at_, s.rows.stop + (h - s.rows.stop)⟩ } :: rest)
    else
      if s.rows.stop = 0 then Option.none
      else
        match shiftRowsDiv ss at_ h isLast with
        | Option.none => Option.none
        | some rest =>
          some (⟨divPath, s.rows, s.cols⟩ ::
                { s with rows := ⟨at_, s.rows.stop - 1⟩ } :: rest)

mutual
/-- `FileLayout::span`: file containers and the spans of rows and columns they
take up, as `(path, rows, columns)` triples.  `Option.none` models the usize
underflow of the unchecked `end -= 1` (see the module comment). -/
def FileLayout.span : FileLayout → List Nat → Size → Option (List Span)
  | .none, _, _ => some []
  | .atom _ _, idx, size => some [⟨idx, ⟨0, size.h⟩, ⟨0, size.w⟩⟩]
  | .sideBySide layouts, idx, size => spanSbS layouts idx size 0 0
  | .topToBottom layouts, idx, size => spanTtB layouts idx size 0 0

/-- The `SideBySide` loop of `span`: `c` is the enumeration index, `at_` the
running column offset; each child is measured with width
`at + (size.w as f64 * props) as usize` and its spans are column-shifted. -/
def spanSbS : Children → List Nat → Size → Nat → Nat → Option (List Span)
  | .nil, _, _, _, _ => some []
  | .cons child prop rest, idx, size, c, at_ =>
    let thisW := at_ + f64_as_usize size.w prop
    match child.span (idx ++ [c]) ⟨thisW, size.h⟩ with
    | Option.none => Option.none
    | some subs =>
      match shiftCols subs at_ size.w rest.isNil with
      | Option.none => Option.none
      | some shifted =>
        match spanSbS rest idx size (c + 1) thisW with
        | Option.none => Option.none
        | some tail => some (shifted ++ tail)

/-- The `TopToBottom` loop of `span`: as `spanSbS` on rows, with a divider
entry per span of each non-last child. -/
def spanTtB : Children → List Nat → Size → Nat → Nat → Option (List Span)
  | .nil, _, _, _, _ => some []
  | .cons child prop rest, idx, size, c, at_ =>
    let thisH := at_ + f64_as_usize size.h prop
    match child.span (idx ++ [c]) ⟨size.w, thisH⟩ with
    | Option.none => Option.none
    | some subs =>
      match shiftRowsDiv subs at_ size.h rest.isNil with
      | Option.none => Option.none
      | some shifted =>
        match spanTtB rest idx size (c + 1) thisH with
        | Option.none => Option.none
        | some tail => some (shifted ++ tail)
end

/-- Stable insertion by ascending `rows.start`; equal keys keep their input
order, matching the output of Rust's stable `sort_by`. -/
def insertByRowStart (x : Span) : List Span → List Span
  | [] => [x]
  | y :: ys =>
    if x.rows.start ≤ y.rows.start then x :: y :: ys
    else y :: insertByRowStart x ys

/-- Stable sort by ascending `rows.start`. -/
def sortByRowStart : List Span → List Span
  | [] => []
  | x :: xs => insertByRowStart x (sortByRowStart xs)

/-- `FileLayout::line`: the spans whose row range contains `y`, sorted by the
comparator `a.1.start.cmp(&b.1.start)` — i.e. by ROW-range start. -/
def FileLayout.line (y : Nat) (spans : List Span) : List Span :=
  sortByRowStart (spans.filter (fun s => s.rows.containsRow y))

/-- The per-container test of `find` inside an `Atom`:
`container.doc.file_name.as_ref().map(|f| get_absolute_path(f).unwrap_or_default())
 == Some(path.to_string())`.  A missing absolute path becomes the default
(empty) string. -/
def findInAtom (resolve : String → Option String) :
    List FileContainer → List Nat → String → Nat → Option (List Nat × Nat)
  | [], _, _, _ => Option.none
  | fc :: fcs, idx, path, ptr =>
    if fc.file_name.map (fun f => (resolve f).getD "") = some path then
      some (idx, ptr)
    else findInAtom resolve fcs idx path (ptr + 1)

mutual
/-- `FileLayout::find`: depth-first search for the first container whose
resolved file name equals `path`, returning `(tree path, container index)`. -/
def FileLayout.find (resolve : String → Option String) :
    FileLayout → List Nat → String → Option (List Nat × Nat)
  | .none, _, _ => Option.none
  | .atom containers _, idx, path => findInAtom resolve containers idx path 0
  | .sideBySide layouts, idx, path => findChildren resolve layouts idx path 0
  | .topToBottom layouts, idx, path => findChildren resolve layouts idx path 0

/-- The recursive-scan loop of `find` over a child list (`nth` is the
enumeration index). -/
def findChildren (resolve : String → Option String) :
    Children → List Nat → String → Nat → Option (List Nat × Nat)
  | .nil, _, _, _ => Option.none
  | .cons child _ rest, idx, path, nth =>
    match child.find resolve (idx ++ [nth]) path with
    | some r => some r
    | Option.none => findChildren resolve rest idx path (nth + 1)
end

mutual
/-- `FileLayout::get_atom`: descend along the path; at a split node
`idx.remove(0)` panics when the path is exhausted, and `layouts[subidx]`
panics when the index is out of range. -/
def FileLayout.get_atom : FileLayout → List Nat → Res (List FileContainer × Nat)
  | .none, _ => .none
  | .atom containers ptr, _ => .ok (containers, ptr)
  | .sideBySide layouts, idx =>
    match idx with
    | [] => .panic
    | i :: rest => getAtomChild layouts i rest
  | .topToBottom layouts, idx =>
    match idx with
    | [] => .panic
    | i :: rest => getAtomChild layouts i rest

/-- `layouts[subidx].0.get_atom(idx)`: out-of-range subscript panics. -/
def getAtomChild : Children → Nat → List Nat → Res (List FileContainer × Nat)
  | .nil, _, _ => .panic
  | .cons child _ _, 0, rest => child.get_atom rest
  | .cons _ _ tail, i + 1, rest => getAtomChild tail i rest
end

mutual
/-- `FileLayout::get_atom_mut`: identical traversal to `get_atom`; the `&mut`
references of the Rust signature are erased in the pure embedding. -/
def FileLayout.get_atom_mut : FileLayout → List Nat → Res (List FileContainer × Nat)
  | .none, _ => .none
  | .atom containers ptr, _ => .ok (containers, ptr)
  | .sideBySide layouts, idx =>
    match idx with
    | [] => .panic
    | i :: rest => getAtomMutChild layouts i rest
  | .topToBottom layouts, idx =>
    match idx with
    | [] => .panic
    | i :: rest => getAtomMutChild layouts i rest

/-- `layouts[subidx].0.get_atom_mut(idx)`: out-of-range subscript panics. -/
def getAtomMutChild : Children → Nat → List Nat → Res (List FileContainer × Nat)
  | .nil, _, _ => .panic
  | .cons child _ _, 0, rest => child.get_atom_mut rest
  | .cons _ _ tail, i + 1, rest => getAtomMutChild tail i rest
end

/-- `FileLayout::get`: `let (fcs, ptr) = self.get_atom(idx)?;
Some(fcs.get(ptr)?)` — an out-of-range active pointer yields `None`. -/
def FileLayout.get (t : FileLayout) (idx : List Nat) : Res FileContainer :=
  match t.get_atom idx with
  | .panic => .panic
  | .none => .none
  | .ok (fcs, ptr) =>
    match fcs.get? ptr with
    | some fc => .ok fc
    | Option.none => .none

/-- `FileLayout::get_mut`: as `get`, through `get_atom_mut` and
`fcs.get_mut(*ptr)`. -/
def FileLayout.get_mut (t : FileLayout) (idx : List Nat) : Res FileContainer :=
  match t.get_atom_mut idx with
  | .panic => .panic
  | .none => .none
  | .ok (fcs, ptr) =>
    match fcs.get? ptr with
    | some fc => .ok fc
    | Option.none => .none

mutual
/-- `FileLayout::move_to`: descend like `get_atom` and set the atom's pointer
unconditionally; a no-op on `None` nodes.  The in-place mutation is modelled
by returning the updated tree; `Option.none` models the panics of
`idx.remove(0)` on an empty path and of an out-of-range `layouts[subidx]`. -/
def FileLayout.move_to : FileLayout → List Nat → Nat → Option FileLayout
  | .none, _, _ => some .none
  | .atom containers _, _, ptr => some (.atom containers ptr)
  | .sideBySide layouts, idx, ptr =>
    match idx with
    | [] => Option.none
    | i :: rest =>
      match moveToChild layouts i rest ptr with
      | some layouts' => some (.sideBySide layouts')
      | Option.none => Option.none
  | .topToBottom layouts, idx, ptr =>
    match idx with
    | [] => Option.none
    | i :: rest =>
      match moveToChild layouts i rest ptr with
      | some layouts' => some (.topToBottom layouts')
      | Option.none => Option.none

/-- `layouts[subidx].0.move_to(idx, ptr)`: out-of-range subscript panics;
otherwise the child list with the addressed child updated. -/
def moveToChild : Children → Nat → List Nat → Nat → Option Children
  | .nil, _, _, _ => Option.none
  | .cons child prop tail, 0, rest, ptr =>
    match child.move_to rest ptr with
    | some child' => some (.cons child' prop tail)
    | Option.none => Option.none
  | .cons child prop tail, i + 1, rest, ptr =>
    match moveToChild tail i rest ptr with
    | some tail' => some (.cons child prop tail')
    | Option.none => Option.none
end

/-! Auxiliary definitions used to state the claims. -/

/-- Count of divider (sentinel-path) entries in a span list. -/
def sentinelCount (l : List Span) : Nat :=
  (l.filter (fun s => s.path = divPath)).length

mutual
/-- Number of entries `span` produces for a tree (independent of the size and
path arguments): one per atom, plus one divider per entry of each non-last
child of a top-to-bottom node. -/
def FileLayout.spanCount : FileLayout → Nat
  | .none => 0
  | .atom _ _ => 1
  | .sideBySide layouts => spanCountSbS layouts
  | .topToBottom layouts => spanCountTtB layouts

/-- Sum of children's span counts. -/
def spanCountSbS : Children → Nat
  | .nil => 0
  | .cons child _ rest => child.spanCount + spanCountSbS rest

/-- Sum of children's span counts, counting non-last children twice (each of
their entries gains one divider). -/
def spanCountTtB : Children → Nat
  | .nil => 0
  | .cons child _ .nil => child.spanCount
  | .cons child _ (.cons c p rest) =>
    2 * child.spanCount + spanCountTtB (.cons c p rest)

/-- Number of divider entries `span` produces for a tree. -/
def FileLayout.divCount : FileLayout → Nat
  | .none => 0
  | .atom _ _ => 0
  | .sideBySide layouts => divCountSbS layouts
  | .topToBottom layouts => divCountTtB layouts

/-- A side-by-side level adds no dividers of its own. -/
def divCountSbS : Children → Nat
  | .nil => 0
  | .cons child _ rest => child.divCount + divCountSbS rest

/-- A top-to-bottom level adds one divider per entry of each non-last child. -/
def divCountTtB : Children → Nat
  | .nil => 0
  | .cons child _ .nil => child.divCount
  | .cons child _ (.cons c p rest) =>
    child.spanCount + child.divCount + divCountTtB (.cons c p rest)
end

mutual
/-- Depth of the tree: number of split levels above the deepest leaf.  Real
span paths rooted at `idx` have length at most `idx.length + depth`. -/
def FileLayout.depth : FileLayout → Nat
  | .none => 0
  | .atom _ _ => 0
  | .sideBySide layouts => depthC layouts + 1
  | .topToBottom layouts => depthC layouts + 1

/-- Maximum depth over a child list. -/
def depthC : Children → Nat
  | .nil => 0
  | .cons child _ rest => max child.depth (depthC rest)
end

/-- Running column (or row) offset after processing a prefix of children:
`at` starts at `at0` and each child advances it by `(extent * prop) as usize`. -/
def atAfter (extent : Nat) (at0 : Nat) : Children → Nat
  | .nil => at0
  | .cons _ prop rest => atAfter extent (at0 + f64_as_usize extent prop) rest

/-- The descent of `get_atom` relates a tree, a consumed path and the node it
lands on: each side-by-side / top-to-bottom level consumes one in-range child
index. -/
inductive DescendsTo : FileLayout → List Nat → FileLayout → Prop
  | refl (t : FileLayout) : DescendsTo t [] t
  | sbs {layouts : Children} {i : Nat} {rest : List Nat} {child : FileLayout}
      {prop : F64} {u : FileLayout} :
      Children.get? layouts i = some (child, prop) → DescendsTo child rest u →
      DescendsTo (.sideBySide layouts) (i :: rest) u
  | ttb {layouts : Children} {i : Nat} {rest : List Nat} {child : FileLayout}
      {prop : F64} {u : FileLayout} :
      Children.get? layouts i = some (child, prop) → DescendsTo child rest u →
      DescendsTo (.topToBottom layouts) (i :: rest) u

/-- A path whose descent reaches a `None` (empty) node, possibly with
leftover path elements. -/
inductive ReachesEmpty : FileLayout → List Nat → Prop
  | here (idx : List Nat) : ReachesEmpty .none idx
  | sbs {layouts : Children} {i : Nat} {rest : List Nat} {child : FileLayout}
      {prop : F64} :
      Children.get? layouts i = some (child, prop) → ReachesEmpty child rest →
      ReachesEmpty (.sideBySide layouts) (i :: rest)
  | ttb {layouts : Children} {i : Nat} {rest : List Nat} {child : FileLayout}
      {prop : F64} :
      Children.get? layouts i = some (child, prop) → ReachesEmpty child rest →
      ReachesEmpty (.topToBottom layouts) (i :: rest)

/-- A path that is invalid against the tree shape in the sense of the claim:
it is exhausted at a split node, or some split level's element is an
out-of-range child index. -/
inductive BadPath : FileLayout → List Nat → Prop
  | sbsExhausted (layouts : Children) : BadPath (.sideBySide layouts) []
  | ttbExhausted (layouts : Children) : BadPath (.topToBottom layouts) []
  | sbsOut {layouts : Children} {i : Nat} {rest : List Nat} :
      Children.get? layouts i = Option.none → BadPath (.sideBySide layouts) (i :: rest)
  | ttbOut {layouts : Children} {i : Nat} {rest : List Nat} :
      Children.get? layouts i = Option.none → BadPath (.topToBottom layouts) (i :: rest)
  | sbsIn {layouts : Children} {i : Nat} {rest : List Nat} {child : FileLayout}
      {prop : F64} :
      Children.get? layouts i = some (child, prop) → BadPath child rest →
      BadPath (.sideBySide layouts) (i :: rest)
  | ttbIn {layouts : Children} {i : Nat} {rest : List Nat} {child : FileLayout}
      {prop : F64} :
      Children.get? layouts i = some (child, prop) → BadPath child rest →
      BadPath (.topToBottom layouts) (i :: rest)

/-! Concrete trees used in counterexamples, scenarios and witnesses. -/

/-- A container whose document has file name "a". -/
def fcA : FileContainer := ⟨some "a"⟩

/-- C5 scenario tree: top-to-bottom, two 0.5-proportion tab groups with one
container each. -/
def ttb5 : FileLayout :=
  .topToBottom (.cons (.atom [fcA] 0) (⟨1, 2⟩ : F64) (.cons (.atom [fcA] 0) (⟨1, 2⟩ : F64) .nil))

/-- C4 scenario tree: side-by-side with proportions 0.33 / 0.33 / 0.34. -/
def sbs33 : FileLayout :=
  .sideBySide (.cons (.atom [fcA] 0) (⟨33, 100⟩ : F64)
    (.cons (.atom [fcA] 0) (⟨33, 100⟩ : F64) (.cons (.atom [fcA] 0) (⟨34, 100⟩ : F64) .nil)))

/-- Two side-by-side children whose proportions are each 1.0 (each within the
nominal (0,1] range, jointly summing to 2). -/
def sbs11 : FileLayout :=
  .sideBySide (.cons (.atom [fcA] 0) ⟨1, 1⟩ (.cons (.atom [fcA] 0) ⟨1, 1⟩ .nil))

/-- Two side-by-side 0.5-proportion tab groups (C2 failing input at width 0). -/
def sbs0 : FileLayout :=
  .sideBySide (.cons (.atom [fcA] 0) (⟨1, 2⟩ : F64) (.cons (.atom [fcA] 0) (⟨1, 2⟩ : F64) .nil))

/-- Top-to-bottom whose non-last child is an empty placeholder. -/
def ttbn : FileLayout :=
  .topToBottom (.cons .none (⟨1, 2⟩ : F64) (.cons (.atom [fcA] 0) (⟨1, 2⟩ : F64) .nil))

/-- A side-by-side node with exactly one child tab group. -/
def sbs1 : FileLayout := .sideBySide (.cons (.atom [fcA] 0) ⟨1, 1⟩ .nil)

/-!  Claim theorems. -/

/-- C1: the claim says `line` sorts its result ascending by column-range
start.  The code sorts by `a.1.start`, the ROW-range start: on two spans that
both contain row 6, the output keeps the span with column start 50 (row start
0) before the span with column start 0 (row start 5), so the column starts of
the result are strictly decreasing.  The comparator was clearly meant to read
the column field (`a.2`): the function exists to order the containers drawn
left to right on one terminal row. -/
theorem line_sorted_by_row_start_not_column :
    FileLayout.line 6 [⟨[1], ⟨0, 10⟩, ⟨50, 60⟩⟩, ⟨[2], ⟨5, 10⟩, ⟨0, 10⟩⟩] =
      [⟨[1], ⟨0, 10⟩, ⟨50, 60⟩⟩, ⟨[2], ⟨5, 10⟩, ⟨0, 10⟩⟩] ∧
    (⟨[2], ⟨5, 10⟩, ⟨0, 10⟩⟩ : Span).cols.start <
      (⟨[1], ⟨0, 10⟩, ⟨50, 60⟩⟩ : Span).cols.start := by
  constructor
  · rfl
  · decide

/-- C2: at `Size {w := 0, h := 5}` on two side-by-side tab groups, the claim
(and the spec's §7) demands a normal return with empty column ranges.  The
code instead reaches `end -= 1` with `end = 0`: a usize underflow, i.e. a
panic in a debug build and a wrap to `2^64 - 1` (a huge, non-empty column
range) in a release build — modelled by the `Option.none` result. -/
theorem span_underflows_at_zero_width :
    FileLayout.span sbs0 [] ⟨0, 5⟩ = Option.none := by
  rfl

/-- C5 (amended): the 0.5/0.5 top-to-bottom split of an 80×24 cell grid
yields the divider entry (sentinel path, pre-shift rows `0..12`, columns
`0..80`) followed by the two tab-group spans with row ranges `0..11` and
`12..24` (not `12..23`), both with column range `0..80`. -/
theorem ttb_half_split_spans :
    FileLayout.span ttb5 [] ⟨80, 24⟩ =
      some [⟨divPath, ⟨0, 12⟩, ⟨0, 80⟩⟩,
            ⟨[0], ⟨0, 11⟩, ⟨0, 80⟩⟩,
            ⟨[1], ⟨12, 24⟩, ⟨0, 80⟩⟩] := by
  rfl

/-- C5 (counterexample): in the 80×24 scenario no produced span has the row
range `12..23` claimed for the second child — the output has three entries
and every row range differs from `12..23`. -/
theorem ttb_half_split_no_row23 :
    ((FileLayout.span ttb5 [] ⟨80, 24⟩).getD []).length = 3 ∧
    ((FileLayout.span ttb5 [] ⟨80, 24⟩).getD []).all
      (fun s => s.rows ≠ (⟨12, 23⟩ : Rg)) = true := by
  constructor
  · rfl
  · rfl

/-- C3 (counterexample): on a side-by-side node with one child, the exhausted
path `[]` makes `idx.remove(0)` panic and the out-of-range path `[1]` makes
`layouts[1]` panic, in every path-addressed operation — none of them returns
the explicit `None`/no-op failure the claim describes. -/
theorem get_atom_panics_on_invalid_path :
    FileLayout.get_atom sbs1 [] = .panic ∧
    FileLayout.get_atom_mut sbs1 [] = .panic ∧
    FileLayout.get_atom sbs1 [1] = .panic ∧
    FileLayout.get_atom_mut sbs1 [1] = .panic ∧
    FileLayout.get sbs1 [1] = .panic ∧
    FileLayout.get_mut sbs1 [1] = .panic ∧
    FileLayout.move_to sbs1 [1] 0 = Option.none := by
  refine ⟨rfl, rfl, rfl, rfl, rfl, rfl, rfl⟩

/-- C4 (counterexample): with two children of proportion 1.0 each (each in
the nominal (0,1] range) at width 10, the last child's span has column range
`10..20`: its end is the child's own oversized extent, not the container
width 10, so the rightmost child overshoots rather than meeting the right
edge. -/
theorem sbs_last_child_overshoot :
    FileLayout.span sbs11 [] ⟨10, 5⟩ =
      some [⟨[0], ⟨0, 5⟩, ⟨0, 9⟩⟩, ⟨[1], ⟨0, 5⟩, ⟨10, 20⟩⟩] ∧
    (20 : Nat) ≠ 10 := by
  exact ⟨rfl, by decide⟩

/-- C6 (counterexample): a top-to-bottom node whose non-last child is an
empty placeholder produces no divider entry at all for that child (the
divider is pushed once per span the child returns, and `None` returns no
spans), contradicting "exactly one divider per non-last child". -/
theorem ttb_none_child_no_divider :
    FileLayout.span ttbn [] ⟨10, 10⟩ = some [⟨[1], ⟨5, 10⟩, ⟨0, 10⟩⟩] ∧
    sentinelCount [⟨([1] : List Nat), ⟨5, 10⟩, ⟨0, 10⟩⟩] = 0 := by
  exact ⟨rfl, rfl⟩

/-- C7 (counterexample): with a resolution service that fails on every name,
`find` still matches the container whose file name is `"a"` when the query
string is empty: `unwrap_or_default()` turns the failure into `""`, which
compares equal to the empty query.  So a resolution failure can be reported
as a match, not only as a non-match. -/
theorem find_matches_unresolved_on_empty_query :
    FileLayout.find (fun _ => Option.none) (.atom [fcA] 0) [] "" =
      some ([], 0) ∧ fcA.file_name = some "a" := by
  exact ⟨rfl, rfl⟩

/-!  Bridging lemmas between the per-child loops and `Children.get?`. -/

/-- `getAtomChild` is subscripting followed by recursion, panicking out of
range. -/
theorem getAtomChild_eq : ∀ (l : Children) (i : Nat) (rest : List Nat),
    getAtomChild l i rest =
      match l.get? i with
      | some cp => cp.1.get_atom rest
      | Option.none => .panic
  | .nil, 0, _ => rfl
  | .nil, _ + 1, _ => rfl
  | .cons _ _ _, 0, _ => rfl
  | .cons _ _ tail, i + 1, rest => getAtomChild_eq tail i rest

mutual
/-- The mutable and shared traversals coincide in the pure embedding. -/
theorem get_atom_mut_eq : ∀ (t : FileLayout) (idx : List Nat),
    t.get_atom_mut idx = t.get_atom idx
  | .none, _ => rfl
  | .atom _ _, _ => rfl
  | .sideBySide _, [] => rfl
  | .sideBySide layouts, i :: rest => getAtomMutChild_eq layouts i rest
  | .topToBottom _, [] => rfl
  | .topToBottom layouts, i :: rest => getAtomMutChild_eq layouts i rest

/-- Child-loop version of `get_atom_mut_eq`. -/
theorem getAtomMutChild_eq : ∀ (l : Children) (i : Nat) (rest : List Nat),
    getAtomMutChild l i rest = getAtomChild l i rest
  | .nil, 0, _ => rfl
  | .nil, _ + 1, _ => rfl
  | .cons child _ _, 0, rest => get_atom_mut_eq child rest
  | .cons _ _ tail, i + 1, rest => getAtomMutChild_eq tail i rest
end

/-- `get_mut` computes the same pure value as `get`. -/
theorem get_mut_eq (t : FileLayout) (idx : List Nat) : t.get_mut idx = t.get idx := by
  unfold FileLayout.get_mut FileLayout.get
  rw [get_atom_mut_eq]

/-- A child untouched by `move_to` leaves the list unchanged. -/
theorem moveToChild_self : ∀ (l : Children) (i : Nat) (rest : List Nat) (p : Nat)
    (child : FileLayout) (prop : F64),
    l.get? i = some (child, prop) → child.move_to rest p = some child →
    moveToChild l i rest p = some l
  | .nil, 0, _, _, _, _ => by intro h; exact absurd h (by simp [Children.get?])
  | .nil, _ + 1, _, _, _, _ => by intro h; exact absurd h (by simp [Children.get?])
  | .cons c pr tail, 0, rest, p, child, prop => by
    intro hget hmv
    obtain ⟨hc, hp⟩ : c = child ∧ pr = prop := by
      simpa [Children.get?] using hget
    subst hc
    simp [moveToChild, hmv]
  | .cons c pr tail, i + 1, rest, p, child, prop => by
    intro hget hmv
    have := moveToChild_self tail i rest p child prop (by simpa [Children.get?] using hget) hmv
    simp [moveToChild, this]

/-- An out-of-range subscript makes the `move_to` loop panic. -/
theorem moveToChild_out : ∀ (l : Children) (i : Nat) (rest : List Nat) (p : Nat),
    l.get? i = Option.none → moveToChild l i rest p = Option.none
  | .nil, 0, _, _ => by intro _; rfl
  | .nil, _ + 1, _, _ => by intro _; rfl
  | .cons c pr tail, 0, rest, p => by
    intro h; exact absurd h (by simp [Children.get?])
  | .cons c pr tail, i + 1, rest, p => by
    intro h
    have := moveToChild_out tail i rest p (by simpa [Children.get?] using h)
    simp [moveToChild, this]

/-- A panicking recursive `move_to` propagates through the loop. -/
theorem moveToChild_panic : ∀ (l : Children) (i : Nat) (rest : List Nat) (p : Nat)
    (child : FileLayout) (prop : F64),
    l.get? i = some (child, prop) → child.move_to rest p = Option.none →
    moveToChild l i rest p = Option.none
  | .nil, 0, _, _, _, _ => by intro h; exact absurd h (by simp [Children.get?])
  | .nil, _ + 1, _, _, _, _ => by intro h; exact absurd h (by simp [Children.get?])
  | .cons c pr tail, 0, rest, p, child, prop => by
    intro hget hmv
    obtain ⟨hc, hp⟩ : c = child ∧ pr = prop := by
      simpa [Children.get?] using hget
    subst hc
    simp [moveToChild, hmv]
  | .cons c pr tail, i + 1, rest, p, child, prop => by
    intro hget hmv
    have := moveToChild_panic tail i rest p child prop (by simpa [Children.get?] using hget) hmv
    simp [moveToChild, this]

/-- Descending to an empty node yields the explicit `None` in `get_atom`. -/
theorem reachesEmpty_get_atom {t : FileLayout} {idx : List Nat}
    (h : ReachesEmpty t idx) : t.get_atom idx = .none := by
  induction h with
  | here _ => rfl
  | sbs hget _ ih =>
    show getAtomChild _ _ _ = _
    rw [getAtomChild_eq, hget]
    exact ih
  | ttb hget _ ih =>
    show getAtomChild _ _ _ = _
    rw [getAtomChild_eq, hget]
    exact ih

/-- Descending to an empty node makes `move_to` a no-op. -/
theorem reachesEmpty_move_to {t : FileLayout} {idx : List Nat}
    (h : ReachesEmpty t idx) (p : Nat) : t.move_to idx p = some t := by
  induction h with
  | here _ => rfl
  | sbs hget _ ih =>
    show (match moveToChild _ _ _ _ with
          | some l' => some (FileLayout.sideBySide l')
          | Option.none => Option.none) = _
    rw [moveToChild_self _ _ _ _ _ _ hget ih]
  | ttb hget _ ih =>
    show (match moveToChild _ _ _ _ with
          | some l' => some (FileLayout.topToBottom l')
          | Option.none => Option.none) = _
    rw [moveToChild_self _ _ _ _ _ _ hget ih]

/-- An invalid path makes `get_atom` panic. -/
theorem badPath_get_atom {t : FileLayout} {idx : List Nat}
    (h : BadPath t idx) : t.get_atom idx = .panic := by
  induction h with
  | sbsExhausted _ => rfl
  | ttbExhausted _ => rfl
  | sbsOut hget => show getAtomChild _ _ _ = _; rw [getAtomChild_eq, hget]
  | ttbOut hget => show getAtomChild _ _ _ = _; rw [getAtomChild_eq, hget]
  | sbsIn hget _ ih =>
    show getAtomChild _ _ _ = _
    rw [getAtomChild_eq, hget]
    exact ih
  | ttbIn hget _ ih =>
    show getAtomChild _ _ _ = _
    rw [getAtomChild_eq, hget]
    exact ih

/-- An invalid path makes `move_to` panic. -/
theorem badPath_move_to {t : FileLayout} {idx : List Nat}
    (h : BadPath t idx) (p : Nat) : t.move_to idx p = Option.none := by
  induction h with
  | sbsExhausted _ => rfl
  | ttbExhausted _ => rfl
  | sbsOut hget =>
    show (match moveToChild _ _ _ _ with
          | some l' => some (FileLayout.sideBySide l')
          | Option.none => Option.none) = _
    rw [moveToChild_out _ _ _ _ hget]
  | ttbOut hget =>
    show (match moveToChild _ _ _ _ with
          | some l' => some (FileLayout.topToBottom l')
          | Option.none => Option.none) = _
    rw [moveToChild_out _ _ _ _ hget]
  | sbsIn hget _ ih =>
    show (match moveToChild _ _ _ _ with
          | some l' => some (FileLayout.sideBySide l')
          | Option.none => Option.none) = _
    rw [moveToChild_panic _ _ _ _ _ _ hget ih]
  | ttbIn hget _ ih =>
    show (match moveToChild _ _ _ _ with
          | some l' => some (FileLayout.topToBottom l')
          | Option.none => Option.none) = _
    rw [moveToChild_panic _ _ _ _ _ _ hget ih]

/-- C3 (amended): the path-addressed operations never default to a wrong
node, but they fail in two distinct ways.  A descent that reaches an Empty
node returns the explicit `None` (and `move_to` is a no-op), while a path
with an out-of-range child index, or exhausted at a split level, makes the
operations panic (`Vec` index out of bounds / `remove(0)` on an empty
vector) instead of returning an explicit failure. -/
theorem addressing_fails_closed_amended (t : FileLayout) (idx : List Nat) (p : Nat) :
    (ReachesEmpty t idx →
      t.get_atom idx = .none ∧ t.get_atom_mut idx = .none ∧
      t.get idx = .none ∧ t.get_mut idx = .none ∧ t.move_to idx p = some t) ∧
    (BadPath t idx →
      t.get_atom idx = .panic ∧ t.get_atom_mut idx = .panic ∧
      t.get idx = .panic ∧ t.get_mut idx = .panic ∧ t.move_to idx p = Option.none) := by
  constructor
  · intro h
    have hat := reachesEmpty_get_atom h
    refine ⟨hat, ?_, ?_, ?_, reachesEmpty_move_to h p⟩
    · rw [get_atom_mut_eq]; exact hat
    · unfold FileLayout.get; rw [hat]
    · rw [get_mut_eq]; unfold FileLayout.get; rw [hat]
  · intro h
    have hat := badPath_get_atom h
    refine ⟨hat, ?_, ?_, ?_, badPath_move_to h p⟩
    · rw [get_atom_mut_eq]; exact hat
    · unfold FileLayout.get; rw [hat]
    · rw [get_mut_eq]; unfold FileLayout.get; rw [hat]

/-- Witness for C3: a side-by-side node whose only child is Empty yields the
explicit `None`/no-op on the in-range path `[0]`, and a one-child
side-by-side node panics on the exhausted path `[]`. -/
theorem addressing_fails_closed_witness :
    ((FileLayout.sideBySide (.cons .none ⟨1, 1⟩ .nil)).get_atom [0] = .none ∧
     (FileLayout.sideBySide (.cons .none ⟨1, 1⟩ .nil)).get_atom_mut [0] = .none ∧
     (FileLayout.sideBySide (.cons .none ⟨1, 1⟩ .nil)).get [0] = .none ∧
     (FileLayout.sideBySide (.cons .none ⟨1, 1⟩ .nil)).get_mut [0] = .none ∧
     (FileLayout.sideBySide (.cons .none ⟨1, 1⟩ .nil)).move_to [0] 7 =
       some (FileLayout.sideBySide (.cons .none ⟨1, 1⟩ .nil))) ∧
    (sbs1.get_atom [] = .panic ∧ sbs1.get_atom_mut [] = .panic ∧
     sbs1.get [] = .panic ∧ sbs1.get_mut [] = .panic ∧
     sbs1.move_to [] 7 = Option.none) :=
  ⟨(addressing_fails_closed_amended _ [0] 7).1
      (ReachesEmpty.sbs rfl (ReachesEmpty.here [])),
   (addressing_fails_closed_amended sbs1 [] 7).2 (BadPath.sbsExhausted _)⟩

/-- The descent of `get_atom` follows `DescendsTo` and, once it lands on a
node, continues with the unconsumed path suffix. -/
theorem descendsTo_get_atom {t : FileLayout} {pre : List Nat} {u : FileLayout}
    (h : DescendsTo t pre u) (rest : List Nat) :
    t.get_atom (pre ++ rest) = u.get_atom rest := by
  induction h with
  | refl _ => rfl
  | sbs hget _ ih =>
    show getAtomChild _ _ _ = _
    rw [getAtomChild_eq, hget]
    exact ih
  | ttb hget _ ih =>
    show getAtomChild _ _ _ = _
    rw [getAtomChild_eq, hget]
    exact ih

/-- C9: when the descent reaches a tab group (`Atom`) node, `get_atom` and
`get_atom_mut` succeed with that node's container list and active index and
silently discard whatever path elements remain, because the `Atom` match arm
never looks at the path. -/
theorem get_atom_ignores_surplus (t : FileLayout) (pre rest : List Nat)
    (cs : List FileContainer) (a : Nat) (h : DescendsTo t pre (.atom cs a)) :
    t.get_atom (pre ++ rest) = .ok (cs, a) ∧
    t.get_atom_mut (pre ++ rest) = .ok (cs, a) := by
  have := descendsTo_get_atom h rest
  exact ⟨this, by rw [get_atom_mut_eq]; exact this⟩

/-- Witness for C9: a one-child side-by-side of a tab group, addressed with
the two surplus elements `7, 8` beyond the real path `[0]`. -/
theorem get_atom_ignores_surplus_witness :
    sbs1.get_atom [0, 7, 8] = .ok ([fcA], 0) ∧
    sbs1.get_atom_mut [0, 7, 8] = .ok ([fcA], 0) :=
  get_atom_ignores_surplus sbs1 [0] [7, 8] [fcA] 0
    (DescendsTo.sbs rfl (DescendsTo.refl _))

/-- C10: when the addressed tab group's active index is not a valid index
into its container list (in particular when the list is empty), `get` and
`get_mut` return the explicit `None`: `fcs.get(ptr)?` fails instead of
dereferencing out of range. -/
theorem get_none_on_invalid_ptr (t : FileLayout) (idx : List Nat)
    (cs : List FileContainer) (a : Nat) (h : t.get_atom idx = .ok (cs, a))
    (hlen : cs.length ≤ a) :
    t.get idx = .none ∧ t.get_mut idx = .none := by
  have hget : t.get idx = .none := by
    unfold FileLayout.get
    rw [h]
    show (match cs.get? a with
          | some fc => Res.ok fc
          | Option.none => Res.none) = Res.none
    rw [List.get?_eq_none.mpr hlen]
  exact ⟨hget, by rw [get_mut_eq]; exact hget⟩

/-- Witness for C10: a tab group with an empty container list and active
index 5. -/
theorem get_none_on_invalid_ptr_witness :
    (FileLayout.atom [] 5).get [] = .none ∧ (FileLayout.atom [] 5).get_mut [] = .none :=
  get_none_on_invalid_ptr (.atom [] 5) [] [] 5 rfl (by decide)

mutual
/-- `move_to` follows the same descent as `get_atom`; on success it rewrites
only the addressed atom's active pointer. -/
theorem move_to_get_atom : ∀ (t : FileLayout) (idx : List Nat) (p : Nat)
    (cs : List FileContainer) (a : Nat),
    t.get_atom idx = .ok (cs, a) →
    ∃ t', t.move_to idx p = some t' ∧ t'.get_atom idx = .ok (cs, p)
  | .none, idx, p, cs, a => by intro h; exact absurd h (by simp [FileLayout.get_atom])
  | .atom cs' a', idx, p, cs, a => by
    intro h
    obtain ⟨hc, _⟩ : cs' = cs ∧ a' = a := by
      simpa [FileLayout.get_atom] using h
    subst hc
    exact ⟨.atom cs' p, rfl, rfl⟩
  | .sideBySide layouts, [], p, cs, a => by
    intro h; exact absurd h (by simp [FileLayout.get_atom])
  | .sideBySide layouts, i :: rest, p, cs, a => by
    intro h
    obtain ⟨l', hmv, hat⟩ := move_to_get_atom_child layouts i rest p cs a h
    refine ⟨.sideBySide l', ?_, hat⟩
    show (match moveToChild layouts i rest p with
          | some l' => some (FileLayout.sideBySide l')
          | Option.none => Option.none) = _
    rw [hmv]
  | .topToBottom layouts, [], p, cs, a => by
    intro h; exact absurd h (by simp [FileLayout.get_atom])
  | .topToBottom layouts, i :: rest, p, cs, a => by
    intro h
    obtain ⟨l', hmv, hat⟩ := move_to_get_atom_child layouts i rest p cs a h
    refine ⟨.topToBottom l', ?_, hat⟩
    show (match moveToChild layouts i rest p with
          | some l' => some (FileLayout.topToBottom l')
          | Option.none => Option.none) = _
    rw [hmv]

/-- Child-loop version of `move_to_get_atom`: the updated list still resolves
the same subscript, now to the updated child. -/
theorem move_to_get_atom_child : ∀ (l : Children) (i : Nat) (rest : List Nat)
    (p : Nat) (cs : List FileContainer) (a : Nat),
    getAtomChild l i rest = .ok (cs, a) →
    ∃ l', moveToChild l i rest p = some l' ∧ getAtomChild l' i rest = .ok (cs, p)
  | .nil, i, rest, p, cs, a => by
    intro h
    exact absurd h (by cases i <;> simp [getAtomChild])
  | .cons child pr tail, 0, rest, p, cs, a => by
    intro h
    obtain ⟨t', hmv, hat⟩ := move_to_get_atom child rest p cs a h
    refine ⟨.cons t' pr tail, ?_, hat⟩
    show (match child.move_to rest p with
          | some c' => some (Children.cons c' pr tail)
          | Option.none => Option.none) = _
    rw [hmv]
  | .cons child pr tail, i + 1, rest, p, cs, a => by
    intro h
    obtain ⟨l', hmv, hat⟩ := move_to_get_atom_child tail i rest p cs a h
    refine ⟨.cons child pr l', ?_, hat⟩
    show (match moveToChild tail i rest p with
          | some tail' => some (Children.cons child pr tail')
          | Option.none => Option.none) = _
    rw [hmv]
end

/-- C8: for a path addressing a tab group and an index `i` valid in its
container list, `move_to(path, i)` succeeds and a subsequent `get(path)`
returns the container previously at index `i` of that tab group. -/
theorem move_to_then_get (t : FileLayout) (idx : List Nat) (i : Nat)
    (cs : List FileContainer) (a : Nat) (fc : FileContainer)
    (hat : t.get_atom idx = .ok (cs, a)) (hi : cs.get? i = some fc) :
    ∃ t', t.move_to idx i = some t' ∧ t'.get idx = .ok fc := by
  obtain ⟨t', hmv, hat'⟩ := move_to_get_atom t idx i cs a hat
  refine ⟨t', hmv, ?_⟩
  unfold FileLayout.get
  rw [hat']
  show (match cs.get? i with
        | some fc => Res.ok fc
        | Option.none => Res.none) = Res.ok fc
  rw [hi]

/-- Witness for C8: switch a two-container tab group, nested in a one-child
side-by-side, to its second container and read it back. -/
theorem move_to_then_get_witness :
    ∃ t', (FileLayout.sideBySide (.cons (.atom [fcA, ⟨some "b"⟩] 0) ⟨1, 1⟩ .nil)).move_to
            [0] 1 = some t' ∧
          t'.get [0] = .ok ⟨some "b"⟩ :=
  move_to_then_get _ [0] 1 [fcA, ⟨some "b"⟩] 0 ⟨some "b"⟩ rfl rfl

/-- Soundness of the scan inside one atom: a returned hit carries the scan's
path unchanged and points at a container whose computed file path equals the
query. -/
theorem findInAtom_sound (resolve : String → Option String) :
    ∀ (fcs : List FileContainer) (idx : List Nat) (path : String) (k : Nat)
      (r : List Nat × Nat),
      findInAtom resolve fcs idx path k = some r →
      r.1 = idx ∧ k ≤ r.2 ∧
      ∃ fc, fcs.get? (r.2 - k) = some fc ∧
        fc.file_name.map (fun f => (resolve f).getD "") = some path := by
  intro fcs
  induction fcs with
  | nil => intro idx path k r h; exact absurd h (by simp [findInAtom])
  | cons fc fcs ih =>
    intro idx path k r h
    rw [findInAtom] at h
    by_cases hm : fc.file_name.map (fun f => (resolve f).getD "") = some path
    · rw [if_pos hm] at h
      obtain rfl : (idx, k) = r := by simpa using h
      exact ⟨rfl, le_refl _, fc, by simp, hm⟩
    · rw [if_neg hm] at h
      obtain ⟨h1, hk, fc', hget, hfp⟩ := ih idx path (k + 1) r h
      refine ⟨h1, le_trans (Nat.le_succ k) hk, fc', ?_, hfp⟩
      have hr : r.2 - k = (r.2 - (k + 1)) + 1 := by omega
      rw [hr]
      simpa using hget

mutual
/-- Soundness of `find`: any returned hit is the scan path extended by a real
path `rel` to an atom, together with a container index whose computed file
path equals the query. -/
theorem find_sound : ∀ (resolve : String → Option String) (t : FileLayout)
    (idx0 : List Nat) (path : String) (r : List Nat × Nat),
    t.find resolve idx0 path = some r →
    ∃ rel cs a fc, r.1 = idx0 ++ rel ∧ t.get_atom rel = .ok (cs, a) ∧
      cs.get? r.2 = some fc ∧
      fc.file_name.map (fun f => (resolve f).getD "") = some path
  | resolve, .none, idx0, path, r => by
    intro h; exact absurd h (by simp [FileLayout.find])
  | resolve, .atom cs a, idx0, path, r => by
    intro h
    rw [FileLayout.find] at h
    obtain ⟨h1, _, fc, hget, hfp⟩ := findInAtom_sound resolve cs idx0 path 0 r h
    exact ⟨[], cs, a, fc, by simp [h1], rfl, by simpa using hget, hfp⟩
  | resolve, .sideBySide layouts, idx0, path, r => by
    intro h
    rw [FileLayout.find] at h
    obtain ⟨j, child, prop, rel, cs, a, fc, hj, h1, hat, hget, hfp⟩ :=
      findChildren_sound resolve layouts idx0 path 0 r h
    refine ⟨j :: rel, cs, a, fc, ?_, ?_, hget, hfp⟩
    · rw [h1]; simp
    · show getAtomChild layouts j rel = _
      rw [getAtomChild_eq, hj]
      exact hat
  | resolve, .topToBottom layouts, idx0, path, r => by
    intro h
    rw [FileLayout.find] at h
    obtain ⟨j, child, prop, rel, cs, a, fc, hj, h1, hat, hget, hfp⟩ :=
      findChildren_sound resolve layouts idx0 path 0 r h
    refine ⟨j :: rel, cs, a, fc, ?_, ?_, hget, hfp⟩
    · rw [h1]; simp
    · show getAtomChild layouts j rel = _
      rw [getAtomChild_eq, hj]
      exact hat

/-- Soundness of the recursive-scan loop: a hit names some child `j` of the
list, reached at absolute index `nth + j`. -/
theorem findChildren_sound : ∀ (resolve : String → Option String) (l : Children)
    (idx0 : List Nat) (path : String) (nth : Nat) (r : List Nat × Nat),
    findChildren resolve l idx0 path nth = some r →
    ∃ j child prop rel cs a fc, l.get? j = some (child, prop) ∧
      r.1 = (idx0 ++ [nth + j]) ++ rel ∧ child.get_atom rel = .ok (cs, a) ∧
      cs.get? r.2 = some fc ∧
      fc.file_name.map (fun f => (resolve f).getD "") = some path
  | resolve, .nil, idx0, path, nth, r => by
    intro h; exact absurd h (by simp [findChildren])
  | resolve, .cons child prop rest, idx0, path, nth, r => by
    intro h
    rw [findChildren] at h
    rcases hc : child.find resolve (idx0 ++ [nth]) path with _ | r0
    · rw [hc] at h
      obtain ⟨j, child', prop', rel, cs, a, fc, hj, h1, hat, hget, hfp⟩ :=
        findChildren_sound resolve rest idx0 path (nth + 1) r h
      refine ⟨j + 1, child', prop', rel, cs, a, fc, by simpa using hj, ?_, hat, hget, hfp⟩
      rw [h1]
      have : nth + 1 + j = nth + (j + 1) := by omega
      rw [this]
    · rw [hc] at h
      obtain hrr : r0 = r := by simpa using h
      obtain ⟨rel, cs, a, fc, h1, hat, hget, hfp⟩ :=
        find_sound resolve child (idx0 ++ [nth]) path r0 hc
      rw [← hrr]
      exact ⟨0, child, prop, rel, cs, a, fc, rfl, by simpa using h1, hat, hget, hfp⟩
end

/-- C7 (amended): a failed resolution is replaced by the empty string by
`unwrap_or_default()`, so it can match exactly the empty query; for every
non-empty query string, any hit returned by `find` points at a container
whose file name is present and resolves successfully to the query.  A
container with no file name at all never matches. -/
theorem find_skips_unresolved (resolve : String → Option String)
    (t : FileLayout) (idx0 : List Nat) (p : String) (r : List Nat × Nat)
    (hp : p ≠ "") (h : t.find resolve idx0 p = some r) :
    ∃ rel cs a fc f, r.1 = idx0 ++ rel ∧ t.get_atom rel = .ok (cs, a) ∧
      cs.get? r.2 = some fc ∧ fc.file_name = some f ∧ resolve f = some p := by
  obtain ⟨rel, cs, a, fc, h1, hat, hget, hfp⟩ := find_sound resolve t idx0 p r h
  rcases hfn : fc.file_name with _ | f
  · rw [hfn] at hfp; simp at hfp
  · rw [hfn] at hfp
    have hfp2 : (resolve f).getD "" = p := by simpa using hfp
    refine ⟨rel, cs, a, fc, f, h1, hat, hget, hfn, ?_⟩
    rcases hr : resolve f with _ | s
    · rw [hr] at hfp2
      simp at hfp2
      exact absurd hfp2.symm hp
    · rw [hr] at hfp2
      simp at hfp2
      rw [hfp2]

/-- Witness for C7: with the identity resolution service, searching a
one-container atom for the non-empty query "a" returns the hit `([], 0)`,
whose container's file name "a" resolves to "a". -/
theorem find_skips_unresolved_witness :
    ∃ rel cs a fc f, (([], 0) : List Nat × Nat).1 = ([] : List Nat) ++ rel ∧
      (FileLayout.atom [fcA] 0).get_atom rel = .ok (cs, a) ∧
      cs.get? (([], 0) : List Nat × Nat).2 = some fc ∧
      fc.file_name = some f ∧ (fun s => some s) f = some "a" :=
  find_skips_unresolved (fun s => some s) (.atom [fcA] 0) [] "a" ([], 0)
    (by decide) rfl

/-- The last-child column rewrite always succeeds and pins every resulting
end to `stop + (w - stop)`: at least `w`, and exactly `w` whenever the
pre-shift ends do not exceed `w`. -/
theorem shiftCols_last (subs : List Span) (at_ w : Nat) :
    ∃ out, shiftCols subs at_ w true = some out ∧
      (∀ s ∈ out, w ≤ s.cols.stop) ∧
      ((∀ u ∈ subs, u.cols.stop ≤ w) → ∀ s ∈ out, s.cols.stop = w) := by
  induction subs with
  | nil => exact ⟨[], rfl, by simp, by simp⟩
  | cons s ss ih =>
    obtain ⟨out', hout, hge, heq⟩ := ih
    refine ⟨{ s with cols := ⟨at_, s.cols.stop + (w - s.cols.stop)⟩ } :: out', ?_, ?_, ?_⟩
    · simp only [shiftCols, if_pos, hout]
    · intro s' hs'
      rcases List.mem_cons.mp hs' with h' | h'
      · subst h'; simp; omega
      · exact hge s' h'
    · intro hall s' hs'
      rcases List.mem_cons.mp hs' with h' | h'
      · subst h'
        have := hall s (List.mem_cons_self s ss)
        simp
        omega
      · exact heq (fun u hu => hall u (List.mem_cons_of_mem s hu)) s' h'

/-- Appending a nonempty child list never yields the empty list. -/
theorem isNil_append_cons (t : Children) (c : FileLayout) (p : F64) (u : Children) :
    (t.append (.cons c p u)).isNil = false := by
  cases t <;> rfl

/-- Decomposition of the side-by-side loop at its last child: the output is
the earlier children's spans followed by the last child's spans as rewritten
by the `isLast` branch of `shiftCols`, with the last child measured at the
accumulated offset. -/
theorem spanSbS_last : ∀ (pre : Children) (child : FileLayout) (prop : F64)
    (idx : List Nat) (size : Size) (c at_ : Nat) (out : List Span),
    spanSbS (pre.append (.cons child prop .nil)) idx size c at_ = some out →
    ∃ outPre subs lastOut,
      child.span (idx ++ [c + pre.clength])
        ⟨atAfter size.w at_ pre + f64_as_usize size.w prop, size.h⟩ = some subs ∧
      shiftCols subs (atAfter size.w at_ pre) size.w true = some lastOut ∧
      out = outPre ++ lastOut
  | .nil, child, prop, idx, size, c, at_, out => by
    intro h
    rw [show Children.append .nil (.cons child prop .nil) = .cons child prop .nil from rfl] at h
    simp only [spanSbS] at h
    split at h
    · exact absurd h (by simp)
    rename_i subs hs
    split at h
    · exact absurd h (by simp)
    rename_i shifted hsc
    obtain hout : shifted ++ [] = out := Option.some.inj h
    refine ⟨[], subs, shifted, ?_, ?_, ?_⟩
    · simpa using hs
    · exact hsc
    · rw [← hout]; simp
  | .cons hd pr tail, child, prop, idx, size, c, at_, out => by
    intro h
    rw [show Children.append (.cons hd pr tail) (.cons child prop .nil) =
          .cons hd pr (tail.append (.cons child prop .nil)) from rfl] at h
    simp only [spanSbS] at h
    split at h
    · exact absurd h (by simp)
    rename_i subs0 hs
    split at h
    · exact absurd h (by simp)
    rename_i shifted0 hsc
    split at h
    · exact absurd h (by simp)
    rename_i out' hrec
    obtain hout : shifted0 ++ out' = out := Option.some.inj h
    obtain ⟨outPre', subs, lastOut, h1, h2, h3⟩ :=
      spanSbS_last tail child prop idx size (c + 1) (at_ + f64_as_usize size.w pr) out' hrec
    refine ⟨shifted0 ++ outPre', subs, lastOut, ?_, ?_, ?_⟩
    · have hc : c + Children.clength (.cons hd pr tail) = c + 1 + Children.clength tail := by
        rw [Children.clength]; omega
      rw [hc]
      exact h1
    · exact h2
    · rw [← hout, h3, List.append_assoc]

/-- C4 (amended): in a side-by-side split, each span of the last child gets
column end `stop + (w - stop)`: never less than the container width (the
right edge is always reached), and exactly the width whenever the child's own
spans do not already overshoot the container (as with proportions summing to
at most 1).  With proportions 0.33/0.33/0.34 at 100×20 the three columns
ranges are `0..32`, `33..65` and `66..100`: the third child ends exactly at
the right edge, covering through column 99. -/
theorem sbs_last_child_right_edge :
    (∀ (pre : Children) (child : FileLayout) (prop : F64) (idx : List Nat)
       (size : Size) (out : List Span),
      FileLayout.span (.sideBySide (pre.append (.cons child prop .nil))) idx size = some out →
      ∃ outPre subs lastOut,
        child.span (idx ++ [pre.clength])
          ⟨atAfter size.w 0 pre + f64_as_usize size.w prop, size.h⟩ = some subs ∧
        shiftCols subs (atAfter size.w 0 pre) size.w true = some lastOut ∧
        out = outPre ++ lastOut ∧
        (∀ s ∈ lastOut, size.w ≤ s.cols.stop) ∧
        ((∀ u ∈ subs, u.cols.stop ≤ size.w) → ∀ s ∈ lastOut, s.cols.stop = size.w)) ∧
    FileLayout.span sbs33 [] ⟨100, 20⟩ =
      some [⟨[0], ⟨0, 20⟩, ⟨0, 32⟩⟩, ⟨[1], ⟨0, 20⟩, ⟨33, 65⟩⟩, ⟨[2], ⟨0, 20⟩, ⟨66, 100⟩⟩] := by
  constructor
  · intro pre child prop idx size out h
    obtain ⟨outPre, subs, lastOut, h1, h2, h3⟩ :=
      spanSbS_last pre child prop idx size 0 0 out h
    obtain ⟨lastOut', h2', hge, heq⟩ := shiftCols_last subs (atAfter size.w 0 pre) size.w
    obtain hl : lastOut' = lastOut := by rw [h2] at h2'; exact (Option.some.inj h2').symm
    subst hl
    refine ⟨outPre, subs, lastOut', ?_, h2, h3, hge, heq⟩
    simpa using h1
  · rfl

/-- Witness for C4: two side-by-side tab groups with proportions 1.0 and 1.0
at width 10 satisfy the decomposition; both bounds apply to the last child's
single span `10..20`. -/
theorem sbs_last_child_right_edge_witness :
    ∃ outPre subs lastOut,
      (FileLayout.atom [fcA] 0).span ([] ++ [Children.clength (.cons (.atom [fcA] 0) ⟨1, 1⟩ .nil)])
        ⟨atAfter 10 0 (.cons (.atom [fcA] 0) ⟨1, 1⟩ .nil) + f64_as_usize 10 ⟨1, 1⟩, 5⟩ = some subs ∧
      shiftCols subs (atAfter 10 0 (.cons (.atom [fcA] 0) ⟨1, 1⟩ .nil)) 10 true = some lastOut ∧
      [⟨[0], ⟨0, 5⟩, ⟨0, 9⟩⟩, ⟨[1], ⟨0, 5⟩, ⟨10, 20⟩⟩] = outPre ++ lastOut ∧
      (∀ s ∈ lastOut, 10 ≤ s.cols.stop) ∧
      ((∀ u ∈ subs, u.cols.stop ≤ 10) → ∀ s ∈ lastOut, s.cols.stop = 10) :=
  sbs_last_child_right_edge.1 (.cons (.atom [fcA] 0) ⟨1, 1⟩ .nil) (.atom [fcA] 0) ⟨1, 1⟩
    [] ⟨10, 5⟩ [⟨[0], ⟨0, 5⟩, ⟨0, 9⟩⟩, ⟨[1], ⟨0, 5⟩, ⟨10, 20⟩⟩] rfl

/-- Sentinel count of a cons. -/
theorem sentinelCount_cons (s : Span) (l : List Span) :
    sentinelCount (s :: l) = (if s.path = divPath then 1 else 0) + sentinelCount l := by
  by_cases h : s.path = divPath
  · simp [sentinelCount, List.filter_cons, h, Nat.add_comm]
  · simp [sentinelCount, List.filter_cons, h]

/-- Sentinel count distributes over append. -/
theorem sentinelCount_append (l1 l2 : List Span) :
    sentinelCount (l1 ++ l2) = sentinelCount l1 + sentinelCount l2 := by
  simp [sentinelCount, List.filter_append]

/-- Sentinel count only depends on the paths. -/
theorem sentinelCount_eq_of_paths : ∀ (l1 l2 : List Span),
    l1.map Span.path = l2.map Span.path → sentinelCount l1 = sentinelCount l2
  | [], l2, h => by
    cases l2 with
    | nil => rfl
    | cons s2 ss2 => simp at h
  | s :: ss, l2, h => by
    cases l2 with
    | nil => simp at h
    | cons s2 ss2 =>
      simp only [List.map_cons, List.cons.injEq] at h
      rw [sentinelCount_cons, sentinelCount_cons, h.1,
        sentinelCount_eq_of_paths ss ss2 h.2]

/-- The column rewrite keeps the number and the paths of the spans. -/
theorem shiftCols_paths : ∀ (subs : List Span) (at_ w : Nat) (b : Bool)
    (out : List Span), shiftCols subs at_ w b = some out →
    out.map Span.path = subs.map Span.path
  | [], at_, w, b, out => by
    intro h
    obtain rfl : [] = out := Option.some.inj h
    rfl
  | s :: ss, at_, w, b, out => by
    intro h
    rw [shiftCols] at h
    split at h
    · split at h
      · exact absurd h (by simp)
      rename_i rest hrest
      obtain rfl : _ :: rest = out := Option.some.inj h
      simp only [List.map_cons]
      rw [shiftCols_paths ss at_ w b rest hrest]
    · split at h
      · exact absurd h (by simp)
      split at h
      · exact absurd h (by simp)
      rename_i rest hrest
      obtain rfl : _ :: rest = out := Option.some.inj h
      simp only [List.map_cons]
      rw [shiftCols_paths ss at_ w b rest hrest]

/-- The last-child row rewrite keeps the number and the paths of the spans
(no divider is pushed for the last child). -/
theorem shiftRowsDiv_last_paths : ∀ (subs : List Span) (at_ hh : Nat)
    (out : List Span), shiftRowsDiv subs at_ hh true = some out →
    out.map Span.path = subs.map Span.path
  | [], at_, hh, out => by
    intro h
    obtain rfl : [] = out := Option.some.inj h
    rfl
  | s :: ss, at_, hh, out => by
    intro h
    rw [shiftRowsDiv] at h
    rw [if_pos rfl] at h
    split at h
    · exact absurd h (by simp)
    rename_i rest hrest
    obtain rfl : _ :: rest = out := Option.some.inj h
    simp only [List.map_cons]
    rw [shiftRowsDiv_last_paths ss at_ hh rest hrest]

/-- The non-last row rewrite pushes exactly one divider (with the sentinel
path) in front of each span: the output is twice as long and gains one
sentinel entry per input span. -/
theorem shiftRowsDiv_nonlast : ∀ (subs : List Span) (at_ hh : Nat)
    (out : List Span), shiftRowsDiv subs at_ hh false = some out →
    out.length = 2 * subs.length ∧
    sentinelCount out = subs.length + sentinelCount subs
  | [], at_, hh, out => by
    intro h
    obtain rfl : [] = out := Option.some.inj h
    exact ⟨rfl, rfl⟩
  | s :: ss, at_, hh, out => by
    intro h
    rw [shiftRowsDiv] at h
    rw [if_neg (by simp)] at h
    split at h
    · exact absurd h (by simp)
    split at h
    · exact absurd h (by simp)
    rename_i rest hrest
    obtain rfl : _ :: _ :: rest = out := Option.some.inj h
    obtain ⟨hlen, hcnt⟩ := shiftRowsDiv_nonlast ss at_ hh rest hrest
    constructor
    · simp [hlen]; omega
    · rw [sentinelCount_cons, sentinelCount_cons, hcnt]
      have hdiv : (⟨divPath, s.rows, s.cols⟩ : Span).path = divPath := rfl
      rw [if_pos hdiv]
      have hkeep : ({ s with rows := ⟨at_, s.rows.stop - 1⟩ } : Span).path = s.path := rfl
      rw [hkeep, sentinelCount_cons]
      by_cases hp : s.path = divPath
      · simp only [if_pos hp, List.length_cons]; omega
      · simp only [if_neg hp, List.length_cons]; omega

/-- Case equation for `spanCountTtB` keyed on whether the tail is empty. -/
theorem spanCountTtB_cons (child : FileLayout) (prop : F64) (rest : Children) :
    spanCountTtB (.cons child prop rest) =
      if rest.isNil then child.spanCount
      else 2 * child.spanCount + spanCountTtB rest := by
  cases rest <;> rfl

/-- Case equation for `divCountTtB` keyed on whether the tail is empty. -/
theorem divCountTtB_cons (child : FileLayout) (prop : F64) (rest : Children) :
    divCountTtB (.cons child prop rest) =
      if rest.isNil then child.divCount
      else child.spanCount + child.divCount + divCountTtB rest := by
  cases rest <;> rfl

mutual
/-- Entry and divider counts of `span` are those predicted by `spanCount` and
`divCount`, whenever no real path can collide with the 100-element sentinel
(guaranteed as soon as the scan path plus the tree depth stays below 100; the
root call has an empty scan path). -/
theorem span_counts : ∀ (t : FileLayout) (idx : List Nat) (size : Size)
    (out : List Span), t.span idx size = some out →
    idx.length + t.depth < 100 →
    out.length = t.spanCount ∧ sentinelCount out = t.divCount
  | .none, idx, size, out => by
    intro h hd
    obtain rfl : [] = out := Option.some.inj h
    exact ⟨rfl, rfl⟩
  | .atom cs a, idx, size, out => by
    intro h hd
    obtain rfl : [⟨idx, ⟨0, size.h⟩, ⟨0, size.w⟩⟩] = out := Option.some.inj h
    refine ⟨rfl, ?_⟩
    have hne : idx ≠ divPath := by
      intro he
      have h100 : idx.length = 100 := by rw [he]; simp [divPath]
      simp only [FileLayout.depth] at hd
      omega
    simp [sentinelCount, List.filter_cons, hne, FileLayout.divCount]
  | .sideBySide layouts, idx, size, out => by
    intro h hd
    have hd' : idx.length + 1 + depthC layouts < 100 := by
      simp only [FileLayout.depth] at hd
      omega
    exact spanSbS_counts layouts idx size 0 0 out h hd'
  | .topToBottom layouts, idx, size, out => by
    intro h hd
    have hd' : idx.length + 1 + depthC layouts < 100 := by
      simp only [FileLayout.depth] at hd
      omega
    exact spanTtB_counts layouts idx size 0 0 out h hd'

/-- Count bookkeeping for the side-by-side loop. -/
theorem spanSbS_counts : ∀ (l : Children) (idx : List Nat) (size : Size)
    (c at_ : Nat) (out : List Span), spanSbS l idx size c at_ = some out →
    idx.length + 1 + depthC l < 100 →
    out.length = spanCountSbS l ∧ sentinelCount out = divCountSbS l
  | .nil, idx, size, c, at_, out => by
    intro h hd
    obtain rfl : [] = out := Option.some.inj h
    exact ⟨rfl, rfl⟩
  | .cons child prop rest, idx, size, c, at_, out => by
    intro h hd
    simp only [spanSbS] at h
    split at h
    · exact absurd h (by simp)
    rename_i subs hs
    split at h
    · exact absurd h (by simp)
    rename_i shifted hsc
    split at h
    · exact absurd h (by simp)
    rename_i tl htl
    obtain rfl : shifted ++ tl = out := Option.some.inj h
    have hmax1 := Nat.le_max_left child.depth (depthC rest)
    have hmax2 := Nat.le_max_right child.depth (depthC rest)
    simp only [depthC] at hd
    have hdc : (idx ++ [c]).length + child.depth < 100 := by
      simp only [List.length_append, List.length_cons, List.length_nil]
      omega
    obtain ⟨hl1, hc1⟩ := span_counts child (idx ++ [c])
      ⟨at_ + f64_as_usize size.w prop, size.h⟩ subs hs hdc
    have hpaths := shiftCols_paths subs at_ size.w rest.isNil shifted hsc
    have hlen : shifted.length = subs.length := by
      have := congrArg List.length hpaths
      simpa using this
    have hcnt : sentinelCount shifted = sentinelCount subs :=
      sentinelCount_eq_of_paths _ _ hpaths
    have hdr : idx.length + 1 + depthC rest < 100 := by omega
    obtain ⟨hl2, hc2⟩ := spanSbS_counts rest idx size (c + 1)
      (at_ + f64_as_usize size.w prop) tl htl hdr
    constructor
    · rw [List.length_append, hlen, hl1, hl2]; rfl
    · rw [sentinelCount_append, hcnt, hc1, hc2]; rfl

/-- Count bookkeeping for the top-to-bottom loop: each non-last child
contributes one divider per entry it produces. -/
theorem spanTtB_counts : ∀ (l : Children) (idx : List Nat) (size : Size)
    (c at_ : Nat) (out : List Span), spanTtB l idx size c at_ = some out →
    idx.length + 1 + depthC l < 100 →
    out.length = spanCountTtB l ∧ sentinelCount out = divCountTtB l
  | .nil, idx, size, c, at_, out => by
    intro h hd
    obtain rfl : [] = out := Option.some.inj h
    exact ⟨rfl, rfl⟩
  | .cons child prop rest, idx, size, c, at_, out => by
    intro h hd
    simp only [spanTtB] at h
    split at h
    · exact absurd h (by simp)
    rename_i subs hs
    split at h
    · exact absurd h (by simp)
    rename_i shifted hsc
    split at h
    · exact absurd h (by simp)
    rename_i tl htl
    obtain rfl : shifted ++ tl = out := Option.some.inj h
    have hmax1 := Nat.le_max_left child.depth (depthC rest)
    have hmax2 := Nat.le_max_right child.depth (depthC rest)
    simp only [depthC] at hd
    have hdc : (idx ++ [c]).length + child.depth < 100 := by
      simp only [List.length_append, List.length_cons, List.length_nil]
      omega
    obtain ⟨hl1, hc1⟩ := span_counts child (idx ++ [c])
      ⟨size.w, at_ + f64_as_usize size.h prop⟩ subs hs hdc
    have hdr : idx.length + 1 + depthC rest < 100 := by omega
    obtain ⟨hl2, hc2⟩ := spanTtB_counts rest idx size (c + 1)
      (at_ + f64_as_usize size.h prop) tl htl hdr
    rcases hb : rest.isNil with _ | _
    · -- non-last child: one divider per entry of `subs`
      rw [hb] at hsc
      obtain ⟨hlen, hcnt⟩ := shiftRowsDiv_nonlast subs at_ size.h shifted hsc
      rw [spanCountTtB_cons, divCountTtB_cons, hb, if_neg (by simp), if_neg (by simp)]
      constructor
      · rw [List.length_append, hlen, hl1, hl2]
      · rw [sentinelCount_append, hcnt, hc1, hc2, hl1]
    · -- last child: `rest` is empty, no divider added
      rw [hb] at hsc
      have hpaths := shiftRowsDiv_last_paths subs at_ size.h shifted hsc
      have hlen : shifted.length = subs.length := by
        have := congrArg List.length hpaths
        simpa using this
      have hcnt : sentinelCount shifted = sentinelCount subs :=
        sentinelCount_eq_of_paths _ _ hpaths
      have hrnil : rest = .nil := by
        cases rest with
        | nil => rfl
        | cons c2 p2 r2 => simp [Children.isNil] at hb
      subst hrnil
      obtain rfl : tl = [] := by
        have hnil : spanTtB Children.nil idx size (c + 1)
            (at_ + f64_as_usize size.h prop) = some [] := rfl
        rw [hnil] at htl
        exact (Option.some.inj htl).symm
      rw [spanCountTtB_cons, divCountTtB_cons]
      simp only [Children.isNil, if_pos]
      constructor
      · rw [List.length_append, hlen, hl1]; rfl
      · rw [sentinelCount_append, hcnt, hc1]; rfl
end

/-- The non-last row rewrite, exactly: the output interleaves, for each
sub-span `s` in order, first the divider `(sentinel path, s.rows, s.cols)` —
the pre-shift ranges — and then `s` with its rows shifted to
`at..(stop - 1)`. -/
theorem shiftRowsDiv_nonlast_eq : ∀ (subs : List Span) (at_ hh : Nat)
    (out : List Span), shiftRowsDiv subs at_ hh false = some out →
    out = subs.flatMap (fun s =>
      [⟨divPath, s.rows, s.cols⟩, ⟨s.path, ⟨at_, s.rows.stop - 1⟩, s.cols⟩])
  | [], at_, hh, out => by
    intro h
    obtain rfl : [] = out := Option.some.inj h
    rfl
  | s :: ss, at_, hh, out => by
    intro h
    rw [shiftRowsDiv] at h
    rw [if_neg (by simp)] at h
    split at h
    · exact absurd h (by simp)
    split at h
    · exact absurd h (by simp)
    rename_i rest hrest
    obtain rfl : _ :: _ :: rest = out := Option.some.inj h
    rw [shiftRowsDiv_nonlast_eq ss at_ hh rest hrest]
    rfl

/-- Decomposition of the top-to-bottom loop at any non-last child (one whose
tail of later siblings is nonempty): the output is the earlier children's
entries, then — for each span `s` the child returns at the accumulated offset
— the divider with the sentinel path and the pre-shift ranges of `s` followed
by the row-shifted `s`, then the later children's entries. -/
theorem spanTtB_nonlast : ∀ (pre : Children) (child : FileLayout) (prop : F64)
    (rest : Children) (idx : List Nat) (size : Size) (c at_ : Nat)
    (out : List Span), rest.isNil = false →
    spanTtB (pre.append (.cons child prop rest)) idx size c at_ = some out →
    ∃ outPre subs outRest,
      child.span (idx ++ [c + pre.clength])
        ⟨size.w, atAfter size.h at_ pre + f64_as_usize size.h prop⟩ = some subs ∧
      out = outPre ++ subs.flatMap (fun s =>
          [⟨divPath, s.rows, s.cols⟩,
           ⟨s.path, ⟨atAfter size.h at_ pre, s.rows.stop - 1⟩, s.cols⟩]) ++ outRest
  | .nil, child, prop, rest, idx, size, c, at_, out => by
    intro hrest h
    rw [show Children.append .nil (.cons child prop rest) = .cons child prop rest from rfl] at h
    simp only [spanTtB] at h
    rw [hrest] at h
    split at h
    · exact absurd h (by simp)
    rename_i subs hs
    split at h
    · exact absurd h (by simp)
    rename_i shifted hsc
    split at h
    · exact absurd h (by simp)
    rename_i tl htl
    obtain hout : shifted ++ tl = out := Option.some.inj h
    refine ⟨[], subs, tl, ?_, ?_⟩
    · simpa using hs
    · rw [← hout, shiftRowsDiv_nonlast_eq subs at_ size.h shifted hsc]
      simp [atAfter]
  | .cons hd pr ptail, child, prop, rest, idx, size, c, at_, out => by
    intro hrest h
    rw [show Children.append (.cons hd pr ptail) (.cons child prop rest) =
          .cons hd pr (ptail.append (.cons child prop rest)) from rfl] at h
    simp only [spanTtB] at h
    split at h
    · exact absurd h (by simp)
    rename_i subs0 hs
    split at h
    · exact absurd h (by simp)
    rename_i shifted0 hsc
    split at h
    · exact absurd h (by simp)
    rename_i tl htl
    obtain hout : shifted0 ++ tl = out := Option.some.inj h
    obtain ⟨outPre', subs, outRest', h1, h2⟩ :=
      spanTtB_nonlast ptail child prop rest idx size (c + 1)
        (at_ + f64_as_usize size.h pr) tl hrest htl
    refine ⟨shifted0 ++ outPre', subs, outRest', ?_, ?_⟩
    · have hc : c + Children.clength (.cons hd pr ptail) = c + 1 + Children.clength ptail := by
        rw [Children.clength]; omega
      rw [hc]
      exact h1
    · rw [← hout, h2]
      simp [List.append_assoc, atAfter]

/-- C6 (amended): a top-to-bottom node emits, for each non-last child, one
divider entry per span that child's recursive call returns — so an Empty
non-last child contributes no divider and a multi-span child contributes
several — each divider bearing the fixed sentinel path `vec![42].repeat(100)`
and that sub-span's pre-shift row/column ranges, placed directly before the
row-shifted sub-span (the decomposition conjunct); a side-by-side node adds
no divider entries of its own, and the complete sentinel-entry census of
either node kind is the `divCountTtB`/`divCountSbS` bookkeeping (the depth
bound rules out a real path colliding with the sentinel). -/
theorem ttb_divider_per_subspan :
    (∀ (pre : Children) (child : FileLayout) (prop : F64) (rest : Children)
       (idx : List Nat) (size : Size) (out : List Span), rest.isNil = false →
      FileLayout.span (.topToBottom (pre.append (.cons child prop rest))) idx size = some out →
      ∃ outPre subs outRest,
        child.span (idx ++ [pre.clength])
          ⟨size.w, atAfter size.h 0 pre + f64_as_usize size.h prop⟩ = some subs ∧
        out = outPre ++ subs.flatMap (fun s =>
            [⟨divPath, s.rows, s.cols⟩,
             ⟨s.path, ⟨atAfter size.h 0 pre, s.rows.stop - 1⟩, s.cols⟩]) ++ outRest) ∧
    (∀ (layouts : Children) (idx : List Nat) (size : Size) (out : List Span),
      FileLayout.span (.topToBottom layouts) idx size = some out →
      idx.length + (FileLayout.topToBottom layouts).depth < 100 →
      sentinelCount out = divCountTtB layouts) ∧
    (∀ (layouts : Children) (idx : List Nat) (size : Size) (out : List Span),
      FileLayout.span (.sideBySide layouts) idx size = some out →
      idx.length + (FileLayout.sideBySide layouts).depth < 100 →
      sentinelCount out = divCountSbS layouts) := by
  refine ⟨?_, ?_, ?_⟩
  · intro pre child prop rest idx size out hrest h
    obtain ⟨outPre, subs, outRest, h1, h2⟩ :=
      spanTtB_nonlast pre child prop rest idx size 0 0 out hrest h
    exact ⟨outPre, subs, outRest, by simpa using h1, h2⟩
  · intro layouts idx size out h hd
    exact (span_counts (.topToBottom layouts) idx size out h hd).2
  · intro layouts idx size out h hd
    exact (span_counts (.sideBySide layouts) idx size out h hd).2

/-- Witness for C6: in the 0.5/0.5 top-to-bottom tree of the C5 scenario at
80×24, the non-last (first) child's single sub-span `(rows 0..12, cols
0..80)` yields exactly the divider with those pre-shift ranges followed by
the shifted span `rows 0..11`, and the sentinel census of the whole output is
the predicted one divider. -/
theorem ttb_divider_per_subspan_witness :
    (∃ outPre subs outRest,
      (FileLayout.atom [fcA] 0).span ([] ++ [Children.clength .nil])
        ⟨(⟨80, 24⟩ : Size).w, atAfter (⟨80, 24⟩ : Size).h 0 .nil + f64_as_usize (⟨80, 24⟩ : Size).h ⟨1, 2⟩⟩ = some subs ∧
      ([⟨divPath, ⟨0, 12⟩, ⟨0, 80⟩⟩, ⟨[0], ⟨0, 11⟩, ⟨0, 80⟩⟩,
        ⟨[1], ⟨12, 24⟩, ⟨0, 80⟩⟩] : List Span) =
        outPre ++ subs.flatMap (fun s =>
            [(⟨divPath, s.rows, s.cols⟩ : Span),
             ⟨s.path, ⟨atAfter (⟨80, 24⟩ : Size).h 0 .nil, s.rows.stop - 1⟩, s.cols⟩]) ++ outRest) ∧
    sentinelCount [⟨divPath, ⟨0, 12⟩, ⟨0, 80⟩⟩,
                   ⟨[0], ⟨0, 11⟩, ⟨0, 80⟩⟩,
                   ⟨[1], ⟨12, 24⟩, ⟨0, 80⟩⟩] =
      divCountTtB (.cons (.atom [fcA] 0) ⟨1, 2⟩ (.cons (.atom [fcA] 0) ⟨1, 2⟩ .nil)) :=
  ⟨ttb_divider_per_subspan.1 .nil (.atom [fcA] 0) ⟨1, 2⟩
      (.cons (.atom [fcA] 0) ⟨1, 2⟩ .nil) [] ⟨80, 24⟩
      [⟨divPath, ⟨0, 12⟩, ⟨0, 80⟩⟩, ⟨[0], ⟨0, 11⟩, ⟨0, 80⟩⟩, ⟨[1], ⟨12, 24⟩, ⟨0, 80⟩⟩]
      rfl rfl,
   ttb_divider_per_subspan.2.1
    (.cons (.atom [fcA] 0) ⟨1, 2⟩ (.cons (.atom [fcA] 0) ⟨1, 2⟩ .nil)) [] ⟨80, 24⟩
    [⟨divPath, ⟨0, 12⟩, ⟨0, 80⟩⟩, ⟨[0], ⟨0, 11⟩, ⟨0, 80⟩⟩, ⟨[1], ⟨12, 24⟩, ⟨0, 80⟩⟩]
    rfl (by decide)⟩

end Ox
